import Mathlib

/-
A shallow embedding of the schedule-extraction backend
(src/backend/schedule_parser.py together with the data model of
src/backend/models.py), with verified properties.

Coordinates are modelled as rationals, strings as Lean strings
(lists of unicode characters), and the regular expressions of the
source are implemented as explicit character-level matchers that
reproduce the leftmost, greedy, non-overlapping semantics of the
Python `re` module on the character classes the patterns use.
-/

namespace BSU

/-! ### Character classes (Python `re` and `str` semantics) -/

/-- Python whitespace class `\s` (ASCII part, the only part used by the data). -/
def isPyWs (c : Char) : Bool :=
  c.toNat = 32 || c.toNat = 9 || c.toNat = 10 || c.toNat = 11 || c.toNat = 12 || c.toNat = 13

/-- Python `\d` / `str.isdigit` on ASCII digits. -/
def isDigitCh (c : Char) : Bool := 48 ≤ c.toNat && c.toNat ≤ 57

def isAsciiUp (c : Char) : Bool := 65 ≤ c.toNat && c.toNat ≤ 90

def isAsciiLow (c : Char) : Bool := 97 ≤ c.toNat && c.toNat ≤ 122

/-- Cyrillic А..Я (U+0410..U+042F). -/
def isCyrUp (c : Char) : Bool := 1040 ≤ c.toNat && c.toNat ≤ 1071

/-- Cyrillic а..я (U+0430..U+044F). -/
def isCyrLow (c : Char) : Bool := 1072 ≤ c.toNat && c.toNat ≤ 1103

/-- Python `str.lower` restricted to the ASCII and Cyrillic ranges the data uses
(Ё U+0401 lowers to ё U+0451). -/
def pyToLower (c : Char) : Char :=
  if isAsciiUp c || isCyrUp c then Char.ofNat (c.toNat + 32)
  else if c.toNat = 1025 then Char.ofNat 1105
  else c

/-- Python `str.upper` on one character, same ranges. -/
def pyToUpper (c : Char) : Char :=
  if isAsciiLow c || isCyrLow c then Char.ofNat (c.toNat - 32)
  else if c.toNat = 1105 then Char.ofNat 1025
  else c

/-- Python `\w` (word character) on the ASCII and Cyrillic ranges. -/
def isWordCh (c : Char) : Bool :=
  isDigitCh c || isAsciiUp c || isAsciiLow c || c.toNat = 95 ||
  isCyrUp c || isCyrLow c || c.toNat = 1025 || c.toNat = 1105

/-- The class `[A-ЯЁ]` of TEACHER_PATTERN: the range runs from LATIN `A` (U+0041)
to Cyrillic `Я` (U+042F); Ё (U+0401) lies inside that range already. -/
def teachUp (c : Char) : Bool := 65 ≤ c.toNat && c.toNat ≤ 1071

/-- The class `[а-яё]` of TEACHER_PATTERN. -/
def teachLow (c : Char) : Bool := isCyrLow c || c.toNat = 1105

/-- The class `[а-я]` of ROOM_PATTERN under `re.IGNORECASE`. -/
def roomLetter (c : Char) : Bool :=
  1072 ≤ (pyToLower c).toNat && (pyToLower c).toNat ≤ 1103

/-! ### List/string helpers with Python semantics -/

/-- `begWith pat l` is true when `pat` is an initial run of `l`. -/
def begWith : List Char → List Char → Bool
  | [], _ => true
  | _ :: _, [] => false
  | p :: ps, c :: cs => p == c && begWith ps cs

/-- Python `pat in s` (contiguous substring test). -/
def hasSubL (pat : List Char) : List Char → Bool
  | [] => begWith pat []
  | c :: cs => begWith pat (c :: cs) || hasSubL pat cs

def hasSub (pat : String) (s : List Char) : Bool := hasSubL pat.data s

def lowerL (l : List Char) : List Char := l.map pyToLower

def strOf (l : List Char) : String := ⟨l⟩

/-- Python `str.strip()`: drop whitespace from both ends. -/
def pyStrip (l : List Char) : List Char :=
  ((l.dropWhile isPyWs).reverse.dropWhile isPyWs).reverse

/-- Python `str.capitalize()`: first character uppercased, the rest lowercased. -/
def pyCapitalize : List Char → List Char
  | [] => []
  | c :: cs => pyToUpper c :: cs.map pyToLower

/-- Python `str.isdigit()`: nonempty and all digits. -/
def pyIsDigit (s : String) : Bool := !s.data.isEmpty && s.data.all isDigitCh

/-- `re.sub(r'\s+', ' ', ·)`: collapse each whitespace run to a single space
(`prevWs` records whether the previous character belonged to a run already
replaced). -/
def collapseWsF (prevWs : Bool) : List Char → List Char
  | [] => []
  | c :: cs =>
    if isPyWs c then
      if prevWs then collapseWsF true cs else ' ' :: collapseWsF true cs
    else c :: collapseWsF false cs

def collapseWs (l : List Char) : List Char := collapseWsF false l

/-- Python `str.split(sep)` for a one-character separator. -/
def splitChar (sep : Char) : List Char → List (List Char)
  | [] => [[]]
  | c :: cs =>
    match splitChar sep cs with
    | [] => [[c]]
    | h :: t => if c == sep then [] :: h :: t else (c :: h) :: t

def splitHead (sep : Char) (l : List Char) : List Char := (splitChar sep l).headD []

/-- Python `str.replace(pat, rep)` for a nonempty `pat` (the only use has a
parenthesized match): leftmost non-overlapping replacement of every
occurrence.  The fuel starts at the list length and strictly dominates the
number of steps, since each replacement consumes `pat.length ≥ 1` characters. -/
def replaceSubF (pat rep : List Char) : Nat → List Char → List Char
  | _, [] => []
  | 0, l => l
  | fuel + 1, c :: cs =>
    if !pat.isEmpty && begWith pat (c :: cs) then
      rep ++ replaceSubF pat rep fuel (List.drop pat.length (c :: cs))
    else c :: replaceSubF pat rep fuel cs

def replaceSub (pat rep l : List Char) : List Char := replaceSubF pat rep l.length l

/-- Stable insertion: `x` is placed before the first element it is strictly
below, hence after all elements of equal key (Python list.sort is stable). -/
def insSt (lt : α → α → Bool) (x : α) : List α → List α
  | [] => [x]
  | y :: ys => if lt x y then x :: y :: ys else y :: insSt lt x ys

/-- Stable sort matching Python's `list.sort(key=...)`. -/
def sortSt (lt : α → α → Bool) (l : List α) : List α :=
  l.foldl (fun acc x => insSt lt x acc) []

/-- Index of the first occurrence, as Python `list.index` guarded by `in`. -/
def idxIn (x : String) : List String → Option Nat
  | [] => none
  | y :: ys => if y == x then some 0 else (idxIn x ys).map (· + 1)

/-! ### Executable rational arithmetic

The `Rat` field operations of the ambient library are deliberately opaque to
the kernel, so the embedding uses its own evaluable forms, built on the
normalizing constructor `mkRat n d = n / d`. -/

/-- `a + b` on ℚ, evaluable. -/
def qadd (a b : ℚ) : ℚ := mkRat (a.num * b.den + b.num * a.den) (a.den * b.den)

/-- `a - b` on ℚ, evaluable. -/
def qsub (a b : ℚ) : ℚ := mkRat (a.num * b.den - b.num * a.den) (a.den * b.den)

/-- `a / 2` on ℚ, evaluable. -/
def qhalf (a : ℚ) : ℚ := mkRat a.num (a.den * 2)

/-- `a / 5` on ℚ, evaluable. -/
def qfifth (a : ℚ) : ℚ := mkRat a.num (a.den * 5)

/-- `a < b` on ℚ, evaluable. -/
def qlt (a b : ℚ) : Bool := Rat.blt a b

/-- `a ≤ b` on ℚ, evaluable. -/
def qle (a b : ℚ) : Bool := !Rat.blt b a

/-- `-a` on ℚ, evaluable. -/
def qneg (a : ℚ) : ℚ := mkRat (-a.num) a.den

/-- Python `abs` on ℚ, evaluable. -/
def qabs (a : ℚ) : ℚ := if qlt a 0 then qneg a else a

/-- The evaluable sum agrees with the field sum. -/
theorem qadd_eq (a b : ℚ) : qadd a b = a + b := by
  have ha : ((a.den : ℚ)) ≠ 0 := Nat.cast_ne_zero.mpr a.den_nz
  have hb : ((b.den : ℚ)) ≠ 0 := Nat.cast_ne_zero.mpr b.den_nz
  unfold qadd
  rw [Rat.mkRat_eq_div]
  push_cast
  conv_rhs => rw [← Rat.num_div_den a, ← Rat.num_div_den b]
  rw [div_add_div _ _ ha hb]
  congr 1
  ring

/-- The evaluable difference agrees with the field difference. -/
theorem qsub_eq (a b : ℚ) : qsub a b = a - b := by
  have ha : ((a.den : ℚ)) ≠ 0 := Nat.cast_ne_zero.mpr a.den_nz
  have hb : ((b.den : ℚ)) ≠ 0 := Nat.cast_ne_zero.mpr b.den_nz
  unfold qsub
  rw [Rat.mkRat_eq_div]
  push_cast
  conv_rhs => rw [← Rat.num_div_den a, ← Rat.num_div_den b]
  rw [div_sub_div _ _ ha hb]
  congr 1
  ring

/-- The evaluable halving agrees with division by two. -/
theorem qhalf_eq (a : ℚ) : qhalf a = a / 2 := by
  unfold qhalf
  rw [Rat.mkRat_eq_div]
  push_cast
  rw [div_mul_eq_div_div, Rat.num_div_den]

/-- The evaluable strict comparison agrees with the order. -/
theorem qlt_iff (a b : ℚ) : qlt a b = true ↔ a < b := Eq.to_iff rfl

/-- The evaluable non-strict comparison agrees with the order. -/
theorem qle_iff (a b : ℚ) : qle a b = true ↔ a ≤ b := by
  unfold qle
  constructor
  · intro h
    by_contra hnle
    have hlt : Rat.blt b a = true := lt_of_not_le hnle
    rw [hlt] at h
    exact absurd h (by decide)
  · intro h
    have hnlt : ¬ (b < a) := not_lt.mpr h
    have hb : Rat.blt b a = false := by
      cases hh : Rat.blt b a
      · rfl
      · exact absurd (show b < a from hh) hnlt
    rw [hb]
    rfl

/-- Python `max(a, b)` on integers (returns `a` when equal). -/
def pyMax (a b : ℤ) : ℤ := if a < b then b else a

/-- Python `int()` truncation toward zero on a rational: `Int.tdiv` truncates
toward zero and the denominator is positive. -/
def pyInt (q : ℚ) : ℤ := Int.tdiv q.num q.den

/-! ### Data model (models.py and the page representation of pdfplumber) -/

/-- One word extracted with coordinates, as produced by
`page.extract_words(...)`: `x0`, `top`, `x1`, `bottom`, `text`. -/
structure Word where
  x0 : ℚ
  x1 : ℚ
  top : ℚ
  bottom : ℚ
  text : String
deriving DecidableEq

/-- One already-opened document page (`page.width`, `page.height` and its
extracted words); `pdfplumber.open` itself is the external, fallible step. -/
structure Page where
  width : ℚ
  height : ℚ
  words : List Word
deriving DecidableEq

/-- models.py `LessonItem`.  The pydantic model declares exactly these six
fields; the `subgroup=` keyword passed by the parser is not among them and is
ignored by the model. -/
structure LessonItem where
  subject : String
  type : String
  teacher : String
  room : String
  time_start : String
  time_end : String
deriving DecidableEq

/-- models.py `DaySchedule`. -/
structure DaySchedule where
  day_name : String
  lessons : List LessonItem
deriving DecidableEq

/-- models.py `ParsedScheduleResponse` (`groups` is an insertion-ordered dict). -/
structure ParsedScheduleResponse where
  groups : List (String × List DaySchedule)
deriving DecidableEq

/-- A group-column anchor found in the header band. -/
structure GAnchor where
  name : String
  center : ℚ
deriving DecidableEq

/-- A group column with its x-interval. -/
structure Col where
  name : String
  x0 : ℚ
  x1 : ℚ
deriving DecidableEq

instance : Inhabited Col := ⟨⟨"", 0, 0⟩⟩

/-- A clustered time anchor (one table row). -/
structure TAnchor where
  y : ℚ
  top : ℚ
  text : String
  xMax : ℚ
deriving DecidableEq

/-- A built time-slot row: start/end time strings and vertical extent. -/
structure Row where
  startS : String
  endS : String
  top : ℚ
  bottom : ℚ
deriving DecidableEq

instance : Inhabited Row := ⟨⟨"", "", 0, 0⟩⟩

/-- The mutable `schedule_by_group` dict: group name to (day name to lessons),
both insertion-ordered. -/
abbrev Sched := List (String × List (String × List LessonItem))

/-! ### TIME_PATTERN: `(\d{1,2}[:.]\d{2})` used with `.match` (anchored) -/

def isSepCh (c : Char) : Bool := c == ':' || c == '.'

/-- `TIME_PATTERN.match(text)` truthiness: the pattern matches at the start
(greedy `\d{1,2}` tries two digits, then one). -/
def matchTime12 : List Char → Bool
  | a :: b :: c :: d :: e :: _ =>
    (isDigitCh a && isDigitCh b && isSepCh c && isDigitCh d && isDigitCh e) ||
    (isDigitCh a && isSepCh b && isDigitCh c && isDigitCh d)
  | [a, b, c, d] => isDigitCh a && isSepCh b && isDigitCh c && isDigitCh d
  | _ => false

/-! ### TYPE_PATTERN:
`\((лек|прак|сем|лаб|кcр|зачет|экз.*?|ф|семинар)\)` with IGNORECASE
(the `c` in `кcр` is a LATIN c in the source). -/

/-- Case-insensitive literal match; the pattern chars are given lowercase. -/
def litCI : List Char → List Char → Option (List Char)
  | [], rest => some rest
  | _ :: _, [] => none
  | p :: ps, c :: cs => if pyToLower c == p then litCI ps cs else none

/-- One literal alternative followed by the closing paren; the returned length
counts both parens. -/
def tryLit (w : String) (r : List Char) : Option Nat :=
  match litCI w.data r with
  | some (')' :: _) => some (w.data.length + 2)
  | _ => none

/-- Lazy `.*?` up to the first `)` (`.` does not cross a newline). -/
def lazyUntilParen : List Char → Option Nat
  | [] => none
  | c :: cs =>
    if c == ')' then some 0
    else if c == '\n' then none
    else (lazyUntilParen cs).map (· + 1)

/-- The `экз.*?` alternative followed by `)`. -/
def tryEkz (r : List Char) : Option Nat :=
  match litCI "экз".data r with
  | some rem => (lazyUntilParen rem).map (fun k => 3 + k + 2)
  | none => none

/-- The alternation, in source order. -/
def typeAltAt (r : List Char) : Option Nat :=
  (tryLit "лек" r).orElse fun _ =>
  (tryLit "прак" r).orElse fun _ =>
  (tryLit "сем" r).orElse fun _ =>
  (tryLit "лаб" r).orElse fun _ =>
  (tryLit "кcр" r).orElse fun _ =>
  (tryLit "зачет" r).orElse fun _ =>
  (tryEkz r).orElse fun _ =>
  (tryLit "ф" r).orElse fun _ =>
  tryLit "семинар" r

/-- TYPE_PATTERN at one position: opening paren, an alternative, closing paren.
Returns the length of group(0). -/
def typeMatchAt : List Char → Option Nat
  | '(' :: r => typeAltAt r
  | _ => none

/-! ### ROOM_PATTERN: `\b(\d{3,4}[а-я]?|с/к|с/з|ауд\.?)\b` with IGNORECASE -/

def isWordO : Option Char → Bool
  | none => false
  | some c => isWordCh c

/-- `\b`: exactly one side is a word character. -/
def bdry (prev cur : Option Char) : Bool := isWordO prev != isWordO cur

/-- Consume exactly `n` digits. -/
def digitsTake : List Char → Nat → Option (List Char)
  | rest, 0 => some rest
  | [], _ + 1 => none
  | c :: cs, n + 1 => if isDigitCh c then digitsTake cs n else none

/-- Trailing `\b` after a match whose final consumed character is a word
character iff `lastWord`. -/
def endB (lastWord : Bool) : List Char → Bool
  | [] => lastWord
  | c :: _ => lastWord != isWordCh c

/-- `\d{3,4}[а-я]?` then `\b`, with the greedy/backtracking order of `re`:
four digits before three, optional letter before none. -/
def roomDigitAlt (rest : List Char) : Option Nat :=
  let try1 : Nat → Option Nat := fun n =>
    match digitsTake rest n with
    | none => none
    | some r1 =>
      match r1 with
      | c :: cs =>
        if roomLetter c && endB true cs then some (n + 1)
        else if endB true (c :: cs) then some n
        else none
      | [] => some n
  (try1 4).orElse fun _ => try1 3

/-- A case-insensitive literal alternative whose last character is a word
character, followed by `\b`. -/
def roomLitAlt (w : String) (rest : List Char) : Option Nat :=
  match litCI w.data rest with
  | some rem => if endB true rem then some w.data.length else none
  | none => none

/-- `ауд\.?` then `\b`: with the dot the final character is non-word, so the
boundary needs a following word character; otherwise backtrack to drop the dot. -/
def roomAudAlt (rest : List Char) : Option Nat :=
  match litCI "ауд".data rest with
  | some rem =>
    match rem with
    | '.' :: cs =>
      if endB false cs then some 4
      else if endB true ('.' :: cs) then some 3
      else none
    | _ => if endB true rem then some 3 else none
  | none => none

/-- ROOM_PATTERN at one position (given the previous character for `\b`). -/
def roomMatchAt (prev : Option Char) (rest : List Char) : Option Nat :=
  if bdry prev rest.head? then
    (roomDigitAlt rest).orElse fun _ =>
    (roomLitAlt "с/к" rest).orElse fun _ =>
    (roomLitAlt "с/з" rest).orElse fun _ =>
    roomAudAlt rest
  else none

/-! ### TEACHER_PATTERN:
`([A-ЯЁ][а-яё]+(?:-[A-ЯЁ][а-яё]+)?\s+(?:[A-ЯЁ]\.\s?[A-ЯЁ]\.|[A-ЯЁ][а-яё]+))` -/

/-- Greedy `p*`: count and remainder. -/
def consumeW (p : Char → Bool) : List Char → Nat × List Char
  | [] => (0, [])
  | c :: cs =>
    if p c then
      let r := consumeW p cs
      (r.1 + 1, r.2)
    else (0, c :: cs)

/-- First alternative `[A-ЯЁ]\.\s?[A-ЯЁ]\.` (the optional space is tried first,
greedily). -/
def altInit : List Char → Option Nat
  | a :: b :: rest =>
    if teachUp a && b == '.' then
      match rest with
      | w :: c :: d :: _ =>
        if isPyWs w && teachUp c && d == '.' then some 5
        else if teachUp w && c == '.' then some 4
        else none
      | [w, c] => if teachUp w && c == '.' then some 4 else none
      | _ => none
    else none
  | _ => none

/-- Second alternative `[A-ЯЁ][а-яё]+`. -/
def altWord : List Char → Option Nat
  | c :: cs =>
    if teachUp c then
      match consumeW teachLow cs with
      | (0, _) => none
      | (n, _) => some (n + 1)
    else none
  | [] => none

/-- `\s+` then the alternation. -/
def teachTail (k : Nat) (r : List Char) : Option Nat :=
  match consumeW isPyWs r with
  | (0, _) => none
  | (nw, r3) => ((altInit r3).orElse fun _ => altWord r3).map fun ni => k + nw + ni

/-- The optional `(?:-[A-ЯЁ][а-яё]+)?`: if a hyphen follows, the group must
match (backtracking to skip it would leave `\s+` facing the hyphen). -/
def teachAfterSurname (k : Nat) (r1 : List Char) : Option Nat :=
  match r1 with
  | '-' :: c2 :: cs2 =>
    if teachUp c2 then
      match consumeW teachLow cs2 with
      | (0, _) => none
      | (n2, r2) => teachTail (k + n2 + 2) r2
    else none
  | '-' :: [] => none
  | _ => teachTail k r1

/-- TEACHER_PATTERN at one position. -/
def teachMatchAt : List Char → Option Nat
  | c :: cs =>
    if teachUp c then
      match consumeW teachLow cs with
      | (0, _) => none
      | (n1, r1) => teachAfterSurname (n1 + 1) r1
    else none
  | [] => none

/-! ### finditer / search -/

/-- All candidate matches (position, length) at every position, leftmost first.
The matcher sees the previous character (for `\b`) and the suffix. -/
def matchesOf (f : Option Char → List Char → Option Nat) (s : List Char) :
    List (Nat × Nat) :=
  (List.range s.length).filterMap fun i =>
    (f (if i = 0 then none else s.drop (i - 1) |>.head?) (s.drop i)).map fun L => (i, L)

/-- Select the leftmost non-overlapping matches, as `finditer` reports them
(no pattern here matches the empty string). -/
def pickNO : List (Nat × Nat) → Nat → List (Nat × Nat)
  | [], _ => []
  | (p, L) :: rest, m => if m ≤ p then (p, L) :: pickNO rest (p + L) else pickNO rest m

def finditer (f : Option Char → List Char → Option Nat) (s : List Char) :
    List (Nat × Nat) :=
  pickNO (matchesOf f s) 0

/-- `list(P.finditer(s))[-1]` with the splice `s[:start] + s[end:]`:
the text before, the matched text, and the text after. -/
def lastSplit (f : Option Char → List Char → Option Nat) (s : List Char) :
    Option (List Char × List Char × List Char) :=
  match (finditer f s).getLast? with
  | none => none
  | some (p, L) => some (s.take p, (s.drop p).take L, s.drop (p + L))

/-- `P.search(s)`: the leftmost match, as matched text. -/
def searchFirst (f : Option Char → List Char → Option Nat) (s : List Char) :
    Option (List Char) :=
  (matchesOf f s).head?.map fun pl => (s.drop pl.1).take pl.2

/-! ### `_spatial_text_parser` -/

/-- Lines 288-293 of the source: the language-subgroup label inferred from the
original text.  The value is passed to `LessonItem(..., subgroup=...)`, but the
pydantic model of models.py has no `subgroup` field, so it is discarded. -/
def subgroupOf (lowOrig : List Char) : Option String :=
  if hasSub "англ" lowOrig then some "Английский"
  else if hasSub "нем" lowOrig then some "Немецкий"
  else if hasSub "фр" lowOrig then some "Французский"
  else if hasSub "кит" lowOrig then some "Китайский"
  else none

/-- `_spatial_text_parser(text)`: subtractive extraction.  Always returns a
one-element list, as the source's single `return [LessonItem(...)]`. -/
def spatialTextParser (text0 : String) : List LessonItem :=
  let original := text0.data
  let t1 := pyStrip (original.map fun c => if c == '\n' then ' ' else c)
  -- 1. session type
  let tm := searchFirst (fun _ r => typeMatchAt r) t1
  let lType :=
    match tm with
    | none => "Прак"
    | some g0 =>
      let val := lowerL (g0.drop 1).dropLast
      if hasSub "лек" val then "Лекция"
      else if hasSub "сем" val then "Семинар"
      else if hasSub "лаб" val then "Лаба"
      else "Прак"
  let t2 := match tm with
    | none => t1
    | some g0 => replaceSub g0 [' '] t1
  -- 2. room: last finditer match, spliced out
  let (room, t3) :=
    match lastSplit roomMatchAt t2 with
    | none => (([] : List Char), t2)
    | some (pre, m, post) => (m, pre ++ post)
  -- 3. teacher: last finditer match, spliced out
  let (teacher, t4) :=
    match lastSplit (fun _ r => teachMatchAt r) t3 with
    | none => (([] : List Char), t3)
    | some (pre, m, post) => (pyStrip m, pre ++ post)
  -- 4. subject: the remainder, cleaned
  let subj0 := pyStrip (collapseWs (pyStrip
    (t4.filter fun c => !(c == '—') && !(c == '-'))))
  let lowOrig := lowerL original
  let subject :=
    if subj0.length < 3 then
      if hasSub "англ" lowOrig then "Иностранный язык".data
      else if hasSub "физ" lowOrig then "Физкультура".data
      else "Занятие".data
    else subj0
  let _sub := subgroupOf lowOrig
  [{ subject := strOf subject, type := lType, teacher := strOf teacher,
     room := strOf room, time_start := "", time_end := "" }]

/-! ### parse_schedule_pdf: page geometry -/

/-- Header scan (lines 47-65): words containing "группа" anchor a group column,
taking the following word as the group number when it is all digits; the
merged "Группа13" form is reachable only when no following word exists. -/
def gAnchStep : List Word → List GAnchor
  | [] => []
  | w :: rest =>
    let txt := lowerL w.text.data
    let here : List GAnchor :=
      if hasSub "группа" txt then
        match rest with
        | next :: _ =>
          if pyIsDigit next.text then [⟨next.text, qhalf (qadd next.x0 next.x1)⟩] else []
        | [] =>
          if decide (txt.length > 6) && txt.any isDigitCh then
            [⟨strOf (txt.filter isDigitCh), qhalf (qadd w.x0 w.x1)⟩]
          else []
      else []
    here ++ gAnchStep rest

/-- Group anchors of a page: header band (top < 200), sorted left to right. -/
def groupAnchorsOf (p : Page) : List GAnchor :=
  sortSt (fun a b => qlt a.center b.center)
    (gAnchStep (p.words.filter fun w => qlt w.top 200))

/-- Column x-intervals (lines 76-94): first left edge 100 left of its center,
other boundaries at midpoints, last right edge at the page width. -/
def colsFrom (width : ℚ) : Option ℚ → List GAnchor → List Col
  | _, [] => []
  | prev, g :: rest =>
    let left := match prev with
      | none => qsub g.center 100
      | some p => qhalf (qadd p g.center)
    let right := match rest with
      | [] => width
      | g2 :: _ => qhalf (qadd g.center g2.center)
    ⟨g.name, left, right⟩ :: colsFrom width (some g.center) rest

/-- Lines 107-115: merge a time word into the first cluster within 15px of its
y-center; the text is extended only when the word lies right of `x_max`. -/
def updTime (w : Word) (yc : ℚ) : List TAnchor → Option (List TAnchor)
  | [] => none
  | t :: ts =>
    if qlt (qabs (qsub t.y yc)) 15 then
      some ((if qlt t.xMax w.x0 then
              { t with text := t.text ++ "-" ++ w.text, xMax := w.x1 }
            else t) :: ts)
    else (updTime w yc ts).map (t :: ·)

/-- Lines 101-123: fold one word into the time-anchor clusters. -/
def insertTime (acc : List TAnchor) (w : Word) : List TAnchor :=
  if matchTime12 w.text.data then
    let yc := qhalf (qadd w.top w.bottom)
    match updTime w yc acc with
    | some acc2 => acc2
    | none => acc ++ [⟨yc, w.top, w.text, w.x1⟩]
  else acc

def timeAnchorsOf (ws : List Word) : List TAnchor := ws.foldl insertTime []

def sortedTimeAnchors (ws : List Word) : List TAnchor :=
  sortSt (fun a b => qlt a.y b.y) (timeAnchorsOf ws)

/-- `.replace('.', ':')` on one character. -/
def dotColon (c : Char) : Char := if c == '.' then ':' else c

/-- Lines 128-150: one row from one anchor and the next anchor below it. -/
def rowOfAnchor (height : ℚ) (t : TAnchor) (next : Option TAnchor) : Row :=
  let rbot := match next with
    | none => height
    | some t2 => qsub t2.top 5
  let clean := t.text.data.map dotColon
  let parts := splitChar '-' clean
  let st := parts.headD []
  let en := match parts with
    | _ :: p2 :: _ => p2
    | _ => []
  ⟨strOf st, strOf en, qsub t.top 5, rbot⟩

def rowsFrom (height : ℚ) : List TAnchor → List Row
  | [] => []
  | t :: rest => rowOfAnchor height t rest.head? :: rowsFrom height rest

def buildRows (p : Page) : List Row :=
  rowsFrom p.height (sortedTimeAnchors p.words)

/-! ### parse_schedule_pdf: cell resolution and assembly -/

/-- Lines 181-192: a word belongs to a column's cell if its center lies in the
x-interval, or if the word's span strictly covers the whole column (a lecture
spanning several group columns). -/
def cellWordsFor (rowWords : List Word) (col : Col) : List Word :=
  rowWords.filter fun w =>
    let c := qhalf (qadd w.x0 w.x1)
    (qle col.x0 c && qlt c col.x1) ||
    (qlt w.x0 col.x0 && qlt col.x1 w.x1)

/-- Line 197 sort key: `(int(top / 5), x0)` lexicographically. -/
def cellLt (a b : Word) : Bool :=
  decide (pyInt (qfifth a.top) < pyInt (qfifth b.top)) ||
  (decide (pyInt (qfifth a.top) = pyInt (qfifth b.top)) && qlt a.x0 b.x0)

/-- Lines 196-200: reading-order join of a cell's words. -/
def cellTextFor (rowWords : List Word) (col : Col) : String :=
  String.intercalate " " ((sortSt cellLt (cellWordsFor rowWords col)).map Word.text)

/-- Lines 216-223: append a lesson unless one with the same subject and
time_start already sits in the bucket (the first one is kept). -/
def addLesson (lst : List LessonItem) (l : LessonItem) : List LessonItem :=
  if lst.any (fun e => e.subject == l.subject && e.time_start == l.time_start)
  then lst else lst ++ [l]

/-- Insertion-ordered dict update: `m.setdefault(k, d)` then mutate by `f`. -/
def updateAssoc {V : Type} (m : List (String × V)) (k : String) (d : V)
    (f : V → V) : List (String × V) :=
  match m with
  | [] => [(k, f d)]
  | (k', v) :: rest =>
    if k' == k then (k', f v) :: rest else (k', v) :: updateAssoc rest k d f

def dayNames : List String :=
  ["понедельник", "вторник", "среда", "четверг", "пятница", "суббота"]

def dOrder : List String :=
  ["Понедельник", "Вторник", "Среда", "Четверг", "Пятница", "Суббота"]

/-- Lines 167-171: every day word may overwrite the current day; the last
lexical hit wins. -/
def dayScan (cur : String) (ws : List Word) : String :=
  ws.foldl (fun c dw =>
    dayNames.foldl (fun c2 dn =>
      if hasSub dn (lowerL dw.text.data) then strOf (pyCapitalize dn.data) else c2) c) cur

/-- Lines 177-223: resolve one column's cell for one row and fold the parsed
lessons into the schedule. -/
def processCol (rowWords : List Word) (row : Row) (day : String)
    (s : Sched) (col : Col) : Sched :=
  let cws := cellWordsFor rowWords col
  if cws.isEmpty then s
  else
    let fullText := cellTextFor rowWords col
    if fullText.length < 3 || hasSub "с/к" (lowerL fullText.data) then s
    else
      let lessons := (spatialTextParser fullText).map fun l =>
        { l with time_start := row.startS, time_end := row.endS }
      updateAssoc s ("Группа " ++ col.name) [] fun days =>
        updateAssoc days day [] fun lst => lessons.foldl addLesson lst

/-- Lines 159-223: one row; the current day threads through the fold. -/
def processRow (pageWords : List Word) (cols : List Col)
    (st : Sched × String) (row : Row) : Sched × String :=
  let leftLimit := (cols.headD default).x0
  let dayWords := pageWords.filter fun w =>
    qle row.top w.top && qle w.bottom row.bottom && qlt w.x1 leftLimit
  let day := dayScan st.2 dayWords
  let rowWords := pageWords.filter fun w =>
    qle row.top w.top && qle w.bottom row.bottom
  (cols.foldl (processCol rowWords row day) st.1, day)

/-- Lines 32-223: one page; a page without group anchors is skipped. -/
def processPage (sched : Sched) (p : Page) : Sched :=
  let anchors := groupAnchorsOf p
  if anchors.isEmpty then sched
  else
    let cols := colsFrom p.width none anchors
    let rows := buildRows p
    (rows.foldl (processRow p.words cols) (sched, "Понедельник")).1

/-! ### parse_schedule_pdf: page selection and output -/

/-- Line 29: `start_page = max(0, (course - 1) * 2)`. -/
def startPage (course : ℤ) : ℤ := pyMax 0 ((course - 1) * 2)

/-- Line 30: `pdf.pages[start_page : start_page + 2]` (Python slice semantics:
an out-of-range start yields the empty list). -/
def pagesFor (doc : List Page) (course : ℤ) : List Page :=
  (doc.drop (startPage course).toNat).take 2

/-- Line 231 sort key: canonical weekday index, 9 for anything else. -/
def dayKeyOf (d : String) : Nat := (idxIn d dOrder).getD 9

/-- Lines 226-237: order each group's days Monday to Saturday. -/
def finalizeSched (sched : Sched) : ParsedScheduleResponse :=
  ⟨sched.map fun gv =>
    (gv.1, (sortSt (fun a b => decide (dayKeyOf a.1 < dayKeyOf b.1)) gv.2).map
      fun dv => ⟨dv.1, dv.2⟩)⟩

/-- `parse_schedule_pdf` on an already-opened document (the pdfplumber open of
the raw bytes is the external fallible step; everything after it is total). -/
def parseSchedulePdf (doc : List Page) (course : ℤ) : ParsedScheduleResponse :=
  finalizeSched ((pagesFor doc course).foldl processPage [])

/-! ### Garble repair (spec §4.4) -/

/-- Character classes for the casing heuristic of the repair function
(lowercase: ASCII a-z, Cyrillic а-я and ё). -/
def isLowerChG (c : Char) : Bool := isAsciiLow c || isCyrLow c || c.toNat = 1105

def isUpperChG (c : Char) : Bool := isAsciiUp c || isCyrUp c || c.toNat = 1025

/-- Modelled from the spec: the closed vocabulary of expected domain terms used
by the garble-repair detection (weekday names, "time", "lecture", "group",
language names); no repair function exists in the source files. -/
def garbleWeekdays : List String :=
  ["понедельник", "вторник", "среда", "четверг", "пятница", "суббота"]

/-- Modelled from the spec: the non-weekday vocabulary terms. -/
def garbleVocab : List String :=
  ["время", "лекция", "группа", "английский", "немецкий", "французский", "китайский"]

/-- Modelled from the spec: the garble-repair function of §4.4, which is absent
from the source files.  Strip whitespace; if the last character is uppercase
and the first lowercase, reverse and test the reversed lowercased text against
the vocabulary: a weekday hit returns the reversed string capitalized, any
other vocabulary hit returns the reversed string, and with no hit the reversed
string is still returned speculatively; otherwise the input is unmodified. -/
def repairGarble (s : List Char) : List Char :=
  let t := pyStrip s
  match t.head?, t.getLast? with
  | some a, some b =>
    if isLowerChG a && isUpperChG b then
      let r := t.reverse
      let rl := lowerL r
      if garbleWeekdays.any (fun w => hasSub w rl) then pyCapitalize r
      else if garbleVocab.any (fun w => hasSub w rl) then r
      else r
    else s
  | _, _ => s

/-! ### Concrete pages used as test fixtures -/

/-- A page with two group columns; a lecture word sits inside the first
column's x-interval only, the second column's cell is empty. -/
def pageTwoGroups : Page :=
  ⟨300, 200,
   [⟨0, 40, 150, 160, "Группа"⟩,
    ⟨145, 155, 150, 160, "1"⟩,
    ⟨150, 190, 150, 160, "Группа"⟩,
    ⟨245, 255, 150, 160, "2"⟩,
    ⟨0, 20, 170, 180, "8.30"⟩,
    ⟨100, 190, 170, 180, "(лек)Математика"⟩]⟩

/-- A page whose two time words have very different heights: their y-centers
order opposite to their top edges. -/
def pageMisorderedTimes : Page :=
  ⟨300, 200,
   [⟨0, 40, 150, 160, "Группа"⟩,
    ⟨50, 60, 150, 160, "13"⟩,
    ⟨0, 20, 0, 100, "8.30"⟩,
    ⟨0, 20, 30, 36, "9.50"⟩]⟩

/-- A page with words but no group header. -/
def pageNoGroups : Page :=
  ⟨100, 100, [⟨0, 10, 0, 10, "пусто"⟩, ⟨0, 10, 20, 30, "8.30"⟩]⟩

/-- The claimed normal form `HH:MM`: two-digit hour, colon, two-digit minute. -/
def isHHMM (s : String) : Bool :=
  match s.data with
  | [a, b, c, d, e] => isDigitCh a && isDigitCh b && c == ':' && isDigitCh d && isDigitCh e
  | _ => false

/-- The shape the code actually guarantees for `time_start`: a one- or
two-digit hour, a colon, and two digits begin the character list. -/
def begTimeL : List Char → Bool
  | a :: b :: c :: d :: e :: _ =>
    (isDigitCh a && isDigitCh b && c == ':' && isDigitCh d && isDigitCh e) ||
    (isDigitCh a && b == ':' && isDigitCh c && isDigitCh d)
  | [a, b, c, d] => isDigitCh a && b == ':' && isDigitCh c && isDigitCh d
  | _ => false

def begTime (s : String) : Bool := begTimeL s.data

/-- The columns detected on `pageTwoGroups`. -/
def colsTwoGroups : List Col :=
  colsFrom pageTwoGroups.width none (groupAnchorsOf pageTwoGroups)

/-- The single time-slot row of `pageTwoGroups`. -/
def rowTwoGroups : Row := (buildRows pageTwoGroups).headD default

/-- The words of `pageTwoGroups` falling inside that row's vertical extent. -/
def rowWordsTwoGroups : List Word :=
  pageTwoGroups.words.filter fun w =>
    qle rowTwoGroups.top w.top && qle w.bottom rowTwoGroups.bottom

/-! ### Helper lemmas: stable sort membership -/

theorem mem_insSt {α : Type} {lt : α → α → Bool} {x a : α} {l : List α}
    (h : a ∈ insSt lt x l) : a = x ∨ a ∈ l := by
  induction l with
  | nil =>
    simp [insSt] at h
    exact Or.inl h
  | cons y ys ih =>
    unfold insSt at h
    by_cases hxy : lt x y
    · rw [if_pos hxy] at h
      rcases List.mem_cons.mp h with h1 | h2
      · exact Or.inl h1
      · exact Or.inr h2
    · rw [if_neg hxy] at h
      rcases List.mem_cons.mp h with h1 | h2
      · exact Or.inr (by simp [h1])
      · rcases ih h2 with h3 | h4
        · exact Or.inl h3
        · exact Or.inr (by simp [h4])

theorem mem_foldl_insSt {α : Type} {lt : α → α → Bool} {a : α} :
    ∀ (l acc : List α),
      a ∈ l.foldl (fun acc x => insSt lt x acc) acc → a ∈ acc ∨ a ∈ l
  | [], _, h => Or.inl h
  | x :: xs, acc, h => by
    rw [List.foldl_cons] at h
    rcases mem_foldl_insSt xs _ h with h1 | h2
    · rcases mem_insSt h1 with rfl | h3
      · exact Or.inr (by simp)
      · exact Or.inl h3
    · exact Or.inr (by simp [h2])

theorem mem_sortSt {α : Type} {lt : α → α → Bool} {a : α} {l : List α}
    (h : a ∈ sortSt lt l) : a ∈ l := by
  rcases mem_foldl_insSt l [] h with h1 | h2
  · simp at h1
  · exact h2

/-! ### Helper lemmas: split heads -/

theorem splitChar_ne_nil (sep : Char) (l : List Char) : splitChar sep l ≠ [] := by
  cases l with
  | nil => simp [splitChar]
  | cons c cs =>
    unfold splitChar
    cases splitChar sep cs with
    | nil => simp
    | cons h t =>
      by_cases hc : c == sep
      · simp [hc]
      · simp [hc]

theorem splitChar_cons_of_ne {sep c : Char} {cs : List Char} {h1 : List Char}
    {t1 : List (List Char)} (hc : (c == sep) = false)
    (heq : splitChar sep cs = h1 :: t1) :
    splitChar sep (c :: cs) = (c :: h1) :: t1 := by
  unfold splitChar
  rw [heq]
  simp [hc]

theorem splitHead_cons {sep c : Char} {cs : List Char} (hc : (c == sep) = false) :
    splitHead sep (c :: cs) = c :: splitHead sep cs := by
  obtain ⟨h1, t1, heq⟩ := List.exists_cons_of_ne_nil (splitChar_ne_nil sep cs)
  unfold splitHead
  rw [splitChar_cons_of_ne hc heq, heq]
  simp

/-! ### Helper lemmas: time-shape invariants -/

theorem matchTime12_append {l k : List Char} (h : matchTime12 l = true) :
    matchTime12 (l ++ k) = true := by
  rcases l with _ | ⟨a, _ | ⟨b, _ | ⟨c, _ | ⟨d, _ | ⟨e, rest⟩⟩⟩⟩⟩
  · simp [matchTime12] at h
  · simp [matchTime12] at h
  · simp [matchTime12] at h
  · simp [matchTime12] at h
  · cases k with
    | nil => simpa using h
    | cons k1 ks =>
      simp only [matchTime12] at h
      simp only [List.cons_append, List.nil_append, matchTime12]
      rw [h]
      simp
  · simpa [matchTime12] using h

theorem updTime_inv {w : Word} {yc : ℚ} {acc res : List TAnchor}
    (hacc : ∀ a ∈ acc, matchTime12 a.text.data = true)
    (hres : updTime w yc acc = some res) :
    ∀ a ∈ res, matchTime12 a.text.data = true := by
  induction acc generalizing res with
  | nil => simp [updTime] at hres
  | cons t ts ih =>
    unfold updTime at hres
    by_cases hy : qlt (qabs (qsub t.y yc)) 15
    · rw [if_pos hy] at hres
      obtain rfl := Option.some.inj hres
      intro a ha
      rcases List.mem_cons.mp ha with rfl | h2
      · by_cases hx : qlt t.xMax w.x0
        · rw [if_pos hx]
          show matchTime12 (t.text ++ "-" ++ w.text).data = true
          rw [String.data_append, String.data_append]
          rw [List.append_assoc]
          exact matchTime12_append (hacc t (by simp))
        · rw [if_neg hx]
          exact hacc t (by simp)
      · exact hacc a (by simp [h2])
    · rw [if_neg hy] at hres
      cases hup : updTime w yc ts with
      | none => rw [hup] at hres; simp at hres
      | some res2 =>
        rw [hup] at hres
        obtain rfl := Option.some.inj hres
        intro a ha
        rcases List.mem_cons.mp ha with rfl | h2
        · exact hacc a (by simp)
        · exact ih (fun b hb => hacc b (by simp [hb])) hup a h2

theorem insertTime_inv {acc : List TAnchor} {w : Word}
    (hacc : ∀ a ∈ acc, matchTime12 a.text.data = true) :
    ∀ a ∈ insertTime acc w, matchTime12 a.text.data = true := by
  by_cases hm : matchTime12 w.text.data
  · cases hup : updTime w (qhalf (qadd w.top w.bottom)) acc with
    | none =>
      have hres : insertTime acc w =
          acc ++ [⟨qhalf (qadd w.top w.bottom), w.top, w.text, w.x1⟩] := by
        simp [insertTime, hm, hup]
      rw [hres]
      intro a ha
      rcases List.mem_append.mp ha with h1 | h2
      · exact hacc a h1
      · simp at h2
        rw [h2]
        exact hm
    | some res =>
      have hres : insertTime acc w = res := by
        simp [insertTime, hm, hup]
      rw [hres]
      exact updTime_inv hacc hup
  · have hres : insertTime acc w = acc := by
      simp [insertTime, hm]
    rw [hres]
    exact hacc

theorem timeAnchorsOf_match (ws : List Word) :
    ∀ a ∈ timeAnchorsOf ws, matchTime12 a.text.data = true := by
  suffices hgen : ∀ (acc : List TAnchor),
      (∀ a ∈ acc, matchTime12 a.text.data = true) →
      ∀ a ∈ ws.foldl insertTime acc, matchTime12 a.text.data = true from
    hgen [] (by simp)
  induction ws with
  | nil => exact fun acc hacc => hacc
  | cons w ws2 ih =>
    intro acc hacc
    rw [List.foldl_cons]
    exact ih _ (insertTime_inv hacc)

theorem digit_ne_dot {x : Char} (h : isDigitCh x = true) : (x == '.') = false := by
  by_contra hne
  rw [Bool.not_eq_false, beq_iff_eq] at hne
  rw [hne] at h
  exact absurd h (by decide)

theorem digit_ne_dash {x : Char} (h : isDigitCh x = true) : (x == '-') = false := by
  by_contra hne
  rw [Bool.not_eq_false, beq_iff_eq] at hne
  rw [hne] at h
  exact absurd h (by decide)

theorem dotColon_digit {x : Char} (h : isDigitCh x = true) : dotColon x = x := by
  unfold dotColon
  rw [digit_ne_dot h]
  rfl

theorem dotColon_sep {x : Char} (h : isSepCh x = true) : dotColon x = ':' := by
  unfold isSepCh at h
  rcases Bool.or_eq_true_iff.mp h with h1 | h2
  · rw [beq_iff_eq] at h1
    rw [h1]
    rfl
  · rw [beq_iff_eq] at h2
    rw [h2]
    rfl

theorem begTimeL_two (a b d e : Char) (X : List Char) (ha : isDigitCh a = true)
    (hb : isDigitCh b = true) (hd : isDigitCh d = true) (he : isDigitCh e = true) :
    begTimeL (a :: b :: ':' :: d :: e :: X) = true := by
  simp [begTimeL, ha, hb, hd, he]

theorem begTimeL_one (a c d : Char) (X : List Char) (ha : isDigitCh a = true)
    (hc : isDigitCh c = true) (hd : isDigitCh d = true) :
    begTimeL (a :: ':' :: c :: d :: X) = true := by
  cases X with
  | nil => simp [begTimeL, ha, hc, hd]
  | cons w ws => simp [begTimeL, ha, hc, hd]

theorem rowOfAnchor_start {height : ℚ} {t : TAnchor} {next : Option TAnchor}
    (hm : matchTime12 t.text.data = true) :
    begTime (rowOfAnchor height t next).startS = true := by
  have hgoal : begTimeL (splitHead '-' (t.text.data.map dotColon)) = true := by
    rcases hl : t.text.data with _ | ⟨a, _ | ⟨b, _ | ⟨c, _ | ⟨d, rest⟩⟩⟩⟩
    · rw [hl] at hm; simp [matchTime12] at hm
    · rw [hl] at hm; simp [matchTime12] at hm
    · rw [hl] at hm; simp [matchTime12] at hm
    · rw [hl] at hm; simp [matchTime12] at hm
    · rw [hl] at hm
      cases rest with
      | nil =>
        -- exactly four characters: one-digit-hour form
        simp only [matchTime12, Bool.and_eq_true] at hm
        obtain ⟨⟨⟨ha, hb⟩, hc⟩, hd⟩ := hm
        simp only [List.map_cons, List.map_nil]
        rw [dotColon_digit ha, dotColon_sep hb, dotColon_digit hc, dotColon_digit hd]
        rw [splitHead_cons (digit_ne_dash ha),
          splitHead_cons (show ((':' : Char) == '-') = false from by decide),
          splitHead_cons (digit_ne_dash hc), splitHead_cons (digit_ne_dash hd)]
        exact begTimeL_one a c d _ ha hc hd
      | cons e rest2 =>
        simp only [matchTime12] at hm
        rcases Bool.or_eq_true_iff.mp hm with h2 | h1
        · -- two-digit-hour form
          simp only [Bool.and_eq_true] at h2
          obtain ⟨⟨⟨⟨ha, hb⟩, hc⟩, hd⟩, he⟩ := h2
          simp only [List.map_cons]
          rw [dotColon_digit ha, dotColon_digit hb, dotColon_sep hc,
            dotColon_digit hd, dotColon_digit he]
          rw [splitHead_cons (digit_ne_dash ha), splitHead_cons (digit_ne_dash hb),
            splitHead_cons (show ((':' : Char) == '-') = false from by decide),
            splitHead_cons (digit_ne_dash hd), splitHead_cons (digit_ne_dash he)]
          exact begTimeL_two a b d e _ ha hb hd he
        · -- one-digit-hour form with a fifth character
          simp only [Bool.and_eq_true] at h1
          obtain ⟨⟨⟨ha, hb⟩, hc⟩, hd⟩ := h1
          simp only [List.map_cons]
          rw [dotColon_digit ha, dotColon_sep hb, dotColon_digit hc, dotColon_digit hd]
          rw [splitHead_cons (digit_ne_dash ha),
            splitHead_cons (show ((':' : Char) == '-') = false from by decide),
            splitHead_cons (digit_ne_dash hc), splitHead_cons (digit_ne_dash hd)]
          exact begTimeL_one a c d _ ha hc hd
  show begTimeL (rowOfAnchor height t next).startS.data = true
  exact hgoal

theorem mem_rowsFrom {height : ℚ} {l : List TAnchor} {r : Row}
    (h : r ∈ rowsFrom height l) :
    ∃ t ∈ l, ∃ n : Option TAnchor, r = rowOfAnchor height t n := by
  induction l with
  | nil => simp [rowsFrom] at h
  | cons t rest ih =>
    unfold rowsFrom at h
    rcases List.mem_cons.mp h with h1 | h2
    · exact ⟨t, by simp, rest.head?, h1⟩
    · obtain ⟨t2, ht2, n, hn⟩ := ih h2
      exact ⟨t2, by simp [ht2], n, hn⟩

theorem buildRows_start {p : Page} {r : Row} (h : r ∈ buildRows p) :
    begTime r.startS = true := by
  obtain ⟨t, ht, n, rfl⟩ := mem_rowsFrom h
  exact rowOfAnchor_start
    (timeAnchorsOf_match p.words t (mem_sortSt ht))

/-! ### Helper lemmas: row chaining -/

theorem rowsFrom_chain (h : ℚ) :
    ∀ l : List TAnchor,
      List.Chain' (fun r r2 : Row => r.bottom = r2.top) (rowsFrom h l)
  | [] => List.chain'_nil
  | [_] => List.chain'_singleton _
  | t :: t2 :: rest => by
    have hrec := rowsFrom_chain h (t2 :: rest)
    rw [show rowsFrom h (t :: t2 :: rest) =
        rowOfAnchor h t (some t2) :: rowOfAnchor h t2 rest.head? :: rowsFrom h rest
      from rfl]
    rw [show rowsFrom h (t2 :: rest) =
        rowOfAnchor h t2 rest.head? :: rowsFrom h rest from rfl] at hrec
    exact List.chain'_cons.mpr ⟨rfl, hrec⟩

theorem rowsFrom_last (h : ℚ) :
    ∀ (l : List TAnchor) (r : Row),
      (rowsFrom h l).getLast? = some r → r.bottom = h
  | [], r => by simp [rowsFrom]
  | [t], r => by
    intro hr
    simp only [rowsFrom, List.getLast?_singleton, Option.some.injEq] at hr
    rw [← hr]
    rfl
  | t :: t2 :: rest, r => by
    intro hr
    rw [show rowsFrom h (t :: t2 :: rest) =
        rowOfAnchor h t (some t2) :: rowOfAnchor h t2 rest.head? :: rowsFrom h rest
      from rfl, List.getLast?_cons_cons] at hr
    exact rowsFrom_last h (t2 :: rest) r hr

/-! ### Helper lemmas: the deduplicating append and schedule folds -/

/-- Two lessons differ on the dedup key of lines 216-223. -/
def distinctST (a b : LessonItem) : Prop :=
  ¬ (a.subject = b.subject ∧ a.time_start = b.time_start)

theorem addLesson_pairwise {lst : List LessonItem} {x : LessonItem}
    (h : List.Pairwise distinctST lst) :
    List.Pairwise distinctST (addLesson lst x) := by
  unfold addLesson
  by_cases hany :
      lst.any (fun e => e.subject == x.subject && e.time_start == x.time_start)
  · rw [if_pos hany]
    exact h
  · rw [if_neg hany]
    rw [List.pairwise_append]
    refine ⟨h, List.pairwise_singleton _ _, ?_⟩
    intro a ha b hb
    have hb1 : b = x := by simpa using hb
    rw [hb1]
    have hfalse :
        lst.any (fun e => e.subject == x.subject && e.time_start == x.time_start)
          = false := Bool.eq_false_iff.mpr hany
    have hae := List.any_eq_false.mp hfalse a ha
    intro hcon
    apply hae
    simp [hcon.1, hcon.2]

theorem pairwise_foldl_addLesson (ls : List LessonItem) :
    ∀ lst, List.Pairwise distinctST lst →
      List.Pairwise distinctST (ls.foldl addLesson lst) := by
  induction ls with
  | nil => exact fun lst h => h
  | cons x xs ih =>
    intro lst h
    rw [List.foldl_cons]
    exact ih _ (addLesson_pairwise h)

theorem mem_addLesson {lst : List LessonItem} {x a : LessonItem}
    (h : a ∈ addLesson lst x) : a ∈ lst ∨ a = x := by
  unfold addLesson at h
  by_cases hany :
      lst.any (fun e => e.subject == x.subject && e.time_start == x.time_start)
  · rw [if_pos hany] at h
    exact Or.inl h
  · rw [if_neg hany] at h
    rcases List.mem_append.mp h with h1 | h2
    · exact Or.inl h1
    · exact Or.inr (by simpa using h2)

theorem mem_foldl_addLesson (ls : List LessonItem) :
    ∀ lst a, a ∈ ls.foldl addLesson lst → a ∈ lst ∨ a ∈ ls := by
  induction ls with
  | nil => exact fun lst a h => Or.inl h
  | cons x xs ih =>
    intro lst a h
    rw [List.foldl_cons] at h
    rcases ih _ a h with h1 | h2
    · rcases mem_addLesson h1 with h3 | rfl
      · exact Or.inl h3
      · exact Or.inr (by simp)
    · exact Or.inr (by simp [h2])

theorem updateAssoc_forall {V : Type} (PV : V → Prop) (m : List (String × V))
    (k : String) (d : V) (f : V → V)
    (hm : ∀ p ∈ m, PV p.2) (hfd : PV (f d)) (hf : ∀ v, PV v → PV (f v)) :
    ∀ p ∈ updateAssoc m k d f, PV p.2 := by
  induction m with
  | nil =>
    intro p hp
    simp only [updateAssoc, List.mem_singleton] at hp
    rw [hp]
    exact hfd
  | cons kv rest ih =>
    obtain ⟨k', v⟩ := kv
    intro p hp
    simp only [updateAssoc] at hp
    by_cases hk : k' == k
    · rw [if_pos hk] at hp
      rcases List.mem_cons.mp hp with rfl | h2
      · exact hf v (hm (k', v) (by simp))
      · exact hm p (by simp [h2])
    · rw [if_neg hk] at hp
      rcases List.mem_cons.mp hp with rfl | h2
      · exact hm (k', v) (by simp)
      · exact ih (fun q hq => hm q (by simp [hq])) p h2

/-- The bucket invariant: predicate `R` holds of every (group, day) lesson
list in the schedule state. -/
def SchedInv (R : List LessonItem → Prop) (s : Sched) : Prop :=
  ∀ gv ∈ s, ∀ dv ∈ gv.2, R dv.2

theorem schedInv_updateCell {R : List LessonItem → Prop}
    (s : Sched) (g day : String) (ls : List LessonItem)
    (hstep : ∀ lst, R lst → R (ls.foldl addLesson lst)) (hR0 : R [])
    (hs : SchedInv R s) :
    SchedInv R (updateAssoc s g []
      (fun days => updateAssoc days day [] (fun lst => ls.foldl addLesson lst))) := by
  intro gv hgv
  refine updateAssoc_forall
    (fun days : List (String × List LessonItem) => ∀ dv ∈ days, R dv.2) s g []
    (fun days => updateAssoc days day [] (fun lst => ls.foldl addLesson lst))
    hs ?_ ?_ gv hgv
  · intro dv hdv
    refine updateAssoc_forall R [] day []
      (fun lst => ls.foldl addLesson lst) (by simp) ?_ ?_ dv hdv
    · exact hstep [] hR0
    · exact hstep
  · intro days hdays dv hdv
    refine updateAssoc_forall R days day []
      (fun lst => ls.foldl addLesson lst) hdays ?_ ?_ dv hdv
    · exact hstep [] hR0
    · exact hstep

theorem schedInv_processCol {R : List LessonItem → Prop} {Q : LessonItem → Prop}
    (hR0 : R [])
    (hadd : ∀ lst (ls : List LessonItem), R lst → (∀ l ∈ ls, Q l) →
      R (ls.foldl addLesson lst))
    {rowWords : List Word} {row : Row} {day : String} {s : Sched} {col : Col}
    (hQrow : ∀ l0 : LessonItem,
      Q { l0 with time_start := row.startS, time_end := row.endS })
    (hs : SchedInv R s) :
    SchedInv R (processCol rowWords row day s col) := by
  unfold processCol
  by_cases h1 : (cellWordsFor rowWords col).isEmpty
  · rw [if_pos h1]
    exact hs
  · rw [if_neg h1]
    by_cases h2 : (cellTextFor rowWords col).length < 3 ||
        hasSub "с/к" (lowerL (cellTextFor rowWords col).data)
    · rw [if_pos h2]
      exact hs
    · rw [if_neg h2]
      have hlessonsQ : ∀ l ∈ (spatialTextParser (cellTextFor rowWords col)).map
          (fun l => { l with time_start := row.startS, time_end := row.endS }),
          Q l := by
        intro l hl
        obtain ⟨l0, _, rfl⟩ := List.mem_map.mp hl
        exact hQrow l0
      exact schedInv_updateCell s ("Группа " ++ col.name) day _
        (fun lst hlst => hadd lst _ hlst hlessonsQ) hR0 hs

theorem schedInv_processRow {R : List LessonItem → Prop} {Q : LessonItem → Prop}
    (hR0 : R [])
    (hadd : ∀ lst (ls : List LessonItem), R lst → (∀ l ∈ ls, Q l) →
      R (ls.foldl addLesson lst))
    {pageWords : List Word} {cols : List Col} {st : Sched × String} {row : Row}
    (hQrow : ∀ l0 : LessonItem,
      Q { l0 with time_start := row.startS, time_end := row.endS })
    (hst : SchedInv R st.1) :
    SchedInv R (processRow pageWords cols st row).1 := by
  unfold processRow
  simp only
  suffices hgen : ∀ (cs : List Col) (s : Sched), SchedInv R s →
      SchedInv R (cs.foldl (processCol
        (pageWords.filter fun w => qle row.top w.top && qle w.bottom row.bottom)
        row
        (dayScan st.2 (pageWords.filter fun w =>
          qle row.top w.top && qle w.bottom row.bottom &&
          qlt w.x1 (cols.headD default).x0))) s) from
    hgen cols st.1 hst
  intro cs
  induction cs with
  | nil => exact fun s hs => hs
  | cons c cs2 ih =>
    intro s hs
    rw [List.foldl_cons]
    exact ih _ (schedInv_processCol hR0 hadd hQrow hs)

theorem schedInv_processPage {R : List LessonItem → Prop} {Q : LessonItem → Prop}
    (hR0 : R [])
    (hadd : ∀ lst (ls : List LessonItem), R lst → (∀ l ∈ ls, Q l) →
      R (ls.foldl addLesson lst))
    (hQ : ∀ (p : Page) (row : Row), row ∈ buildRows p → ∀ l0 : LessonItem,
      Q { l0 with time_start := row.startS, time_end := row.endS })
    {sched : Sched} {p : Page} (hs : SchedInv R sched) :
    SchedInv R (processPage sched p) := by
  unfold processPage
  by_cases h1 : (groupAnchorsOf p).isEmpty
  · rw [if_pos h1]
    exact hs
  · rw [if_neg h1]
    suffices hgen : ∀ (rs : List Row), (∀ r ∈ rs, r ∈ buildRows p) →
        ∀ (st : Sched × String), SchedInv R st.1 →
        SchedInv R ((rs.foldl
          (processRow p.words (colsFrom p.width none (groupAnchorsOf p))) st)).1 from
      hgen (buildRows p) (fun r hr => hr) (sched, "Понедельник") hs
    intro rs
    induction rs with
    | nil => exact fun _ st hst => hst
    | cons r rs2 ih =>
      intro hmem st hst
      rw [List.foldl_cons]
      refine ih (fun r2 hr2 => hmem r2 (by simp [hr2])) _ ?_
      exact schedInv_processRow hR0 hadd (hQ p r (hmem r (by simp))) hst

/-- The master invariant: `R` holds of every day's lesson list in the final
response, provided the deduplicating fold preserves it for lessons satisfying
`Q`, and every lesson stamped with a row's times satisfies `Q`. -/
theorem parse_schedInv (R : List LessonItem → Prop) (Q : LessonItem → Prop)
    (hR0 : R [])
    (hadd : ∀ lst (ls : List LessonItem), R lst → (∀ l ∈ ls, Q l) →
      R (ls.foldl addLesson lst))
    (hQ : ∀ (p : Page) (row : Row), row ∈ buildRows p → ∀ l0 : LessonItem,
      Q { l0 with time_start := row.startS, time_end := row.endS })
    (doc : List Page) (course : ℤ) :
    ∀ gv ∈ (parseSchedulePdf doc course).groups, ∀ ds ∈ gv.2, R ds.lessons := by
  have hinv : SchedInv R ((pagesFor doc course).foldl processPage []) := by
    suffices hgen : ∀ (ps : List Page) (s : Sched), SchedInv R s →
        SchedInv R (ps.foldl processPage s) from
      hgen _ [] (by intro gv hgv; simp at hgv)
    intro ps
    induction ps with
    | nil => exact fun s hs => hs
    | cons p ps2 ih =>
      intro s hs
      rw [List.foldl_cons]
      exact ih _ (schedInv_processPage hR0 hadd hQ hs)
  intro gv hgv ds hds
  unfold parseSchedulePdf finalizeSched at hgv
  obtain ⟨gv0, hgv0, rfl⟩ := List.mem_map.mp hgv
  simp only at hds
  obtain ⟨dv, hdv, rfl⟩ := List.mem_map.mp hds
  exact hinv gv0 hgv0 dv (mem_sortSt hdv)

/-! ### Claims -/

/-- C1: for the literal cell text "(лек) Математика Иванов И.И. 301" the claim
expects one LessonItem with subject containing "Математика", teacher
"Иванов И.И." and room "301".  The code does return one item with session type
"Лекция" and room "301", but TEACHER_PATTERN's two-capitalized-words
alternative greedily captures "Математика Иванов" (the comment in the source
restricts that form to the end of the string, the regex does not), so the
teacher is "Математика Иванов" and the leftover subject is "И.И.". -/
theorem c1_canonical_cell_eval :
    spatialTextParser "(лек) Математика Иванов И.И. 301" =
      [{ subject := "И.И.", type := "Лекция", teacher := "Математика Иванов",
         room := "301", time_start := "", time_end := "" }] ∧
    hasSub "Математика" "И.И.".data = false := by
  constructor
  · decide
  · decide

/-- C2 counterexample: on "Иностранный язык Петров И.И. 205 Сидорова А.А. 206"
the claim expects two LessonItems; `_spatial_text_parser` always returns
exactly one. -/
theorem c2_counterexample :
    ¬ ((spatialTextParser
        "Иностранный язык Петров И.И. 205 Сидорова А.А. 206").length = 2) := by
  decide

/-- C2 (amended): the parser returns exactly one LessonItem; only the last
room match ("206") and the last instructor match ("Сидорова А.А.") are
subtracted, the subject keeps the shared prefix together with the first
instructor and first room, the session type defaults to "Прак", and the
LessonItem model carries no subgroup field. -/
theorem c2_amended_single_item :
    spatialTextParser "Иностранный язык Петров И.И. 205 Сидорова А.А. 206" =
      [{ subject := "Иностранный язык Петров И.И. 205", type := "Прак",
         teacher := "Сидорова А.А.", room := "206",
         time_start := "", time_end := "" }] := by
  decide

/-- C3 counterexample: on `pageTwoGroups` the second group's cell collects no
tokens while the first group's cell (a column strictly between the time area
and the second column) holds "(лек)Математика", which carries the lecture
marker; yet the resolved text for the empty cell is "" and only "Группа 1"
receives the lesson — there is no neighbor-inheritance fallback in the code. -/
theorem c3_counterexample :
    cellWordsFor rowWordsTwoGroups (colsTwoGroups.getD 1 default) = [] ∧
    cellTextFor rowWordsTwoGroups (colsTwoGroups.getD 0 default) = "(лек)Математика" ∧
    hasSub "лек" (lowerL "(лек)Математика".data) = true ∧
    cellTextFor rowWordsTwoGroups (colsTwoGroups.getD 1 default) ≠ "(лек)Математика" ∧
    (parseSchedulePdf [pageTwoGroups] 1).groups.map Prod.fst = ["Группа 1"] := by
  refine ⟨by decide, by decide, by decide, by decide, by decide⟩

/-- C3 (amended): a (slot, column) pair whose token collection is empty
contributes nothing to the schedule — the cell is skipped, never filled from a
neighboring column. -/
theorem c3_amended_empty_cell_skipped (rowWords : List Word) (row : Row)
    (day : String) (s : Sched) (col : Col)
    (h : cellWordsFor rowWords col = []) :
    processCol rowWords row day s col = s := by
  unfold processCol
  rw [h]
  rfl

/-- Witness for `c3_amended_empty_cell_skipped` at the concrete empty cell of
`pageTwoGroups`. -/
theorem c3_amended_witness :
    cellWordsFor rowWordsTwoGroups (colsTwoGroups.getD 1 default) = [] ∧
    processCol rowWordsTwoGroups rowTwoGroups "Понедельник" []
      (colsTwoGroups.getD 1 default) = [] := by
  refine ⟨by decide, ?_⟩
  exact c3_amended_empty_cell_skipped rowWordsTwoGroups rowTwoGroups
    "Понедельник" [] (colsTwoGroups.getD 1 default) (by decide)

/-- C4 counterexample: a one-page document with course 3 gives start index 4,
out of bounds; the code then processes the EMPTY page set (Python slice
semantics), not all available pages as the claim states. -/
theorem c4_counterexample :
    (startPage 3).toNat = 4 ∧
    (([pageTwoGroups] : List Page)).length ≤ 4 ∧
    pagesFor [pageTwoGroups] 3 = [] ∧
    pagesFor [pageTwoGroups] 3 ≠ [pageTwoGroups] := by
  refine ⟨by decide, by decide, by decide, by decide⟩

/-- C4 (amended): when the computed start index lies at or beyond the page
count, the loader selects no pages at all and the parse returns the empty
result; there is no fall-back to the full page list. -/
theorem c4_amended_out_of_range_empty (doc : List Page) (course : ℤ)
    (h : doc.length ≤ (startPage course).toNat) :
    pagesFor doc course = [] ∧ parseSchedulePdf doc course = ⟨[]⟩ := by
  have hp : pagesFor doc course = [] := by
    unfold pagesFor
    rw [List.drop_eq_nil_of_le h]
    rfl
  refine ⟨hp, ?_⟩
  unfold parseSchedulePdf
  rw [hp]
  rfl

/-- Witness for `c4_amended_out_of_range_empty` at the one-page document and
course 3. -/
theorem c4_amended_witness :
    (([pageTwoGroups] : List Page)).length ≤ (startPage 3).toNat ∧
    (pagesFor [pageTwoGroups] 3 = [] ∧
      parseSchedulePdf [pageTwoGroups] 3 = ⟨[]⟩) := by
  exact ⟨by decide, c4_amended_out_of_range_empty [pageTwoGroups] 3 (by decide)⟩

/-- C9: a non-positive course behaves exactly as course 1: the start index is
clamped to 0 (never negative) and the parse result coincides. -/
theorem c9_course_clamp (doc : List Page) (course : ℤ) (h : course ≤ 0) :
    parseSchedulePdf doc course = parseSchedulePdf doc 1 ∧
    startPage course = 0 := by
  have h0 : startPage course = 0 := by
    unfold startPage pyMax
    have hx : ¬ ((0 : ℤ) < (course - 1) * 2) := by nlinarith
    rw [if_neg hx]
  have h1 : startPage 1 = 0 := by decide
  refine ⟨?_, h0⟩
  unfold parseSchedulePdf pagesFor
  rw [h0, h1]

/-- Witness for `c9_course_clamp` at course -2. -/
theorem c9_witness :
    ((-2 : ℤ) ≤ 0) ∧
    (parseSchedulePdf [pageTwoGroups] (-2) = parseSchedulePdf [pageTwoGroups] 1 ∧
      startPage (-2) = 0) := by
  exact ⟨by decide, c9_course_clamp [pageTwoGroups] (-2) (by decide)⟩

/-- C10 counterexample: on `pageTwoGroups` the produced lesson has
time_start "8:30" (a one-digit hour, not HH:MM) and time_end "" (the time
cluster held a single time token), so not every LessonItem in the result
carries HH:MM time strings. -/
theorem c10_counterexample :
    (parseSchedulePdf [pageTwoGroups] 1).groups =
      [("Группа 1",
        [{ day_name := "Понедельник",
           lessons := [{ subject := "Математика", type := "Лекция",
                         teacher := "", room := "", time_start := "8:30",
                         time_end := "" }] }])] ∧
    isHHMM "8:30" = false ∧ isHHMM "" = false := by
  refine ⟨by decide, by decide, by decide⟩

/-! ### Helper lemmas: garble-repair character classes and stripping -/

theorem lower_not_upper {c : Char} (h : isLowerChG c = true) :
    isUpperChG c = false := by
  simp only [isLowerChG, isAsciiLow, isCyrLow, Bool.or_eq_true, Bool.and_eq_true,
    decide_eq_true_eq] at h
  rw [Bool.eq_false_iff]
  intro hu
  simp only [isUpperChG, isAsciiUp, isCyrUp, Bool.or_eq_true, Bool.and_eq_true,
    decide_eq_true_eq] at hu
  omega

theorem upper_not_lower {c : Char} (h : isUpperChG c = true) :
    isLowerChG c = false := by
  rw [Bool.eq_false_iff]
  intro hl
  rw [lower_not_upper hl] at h
  exact absurd h (by decide)

theorem lower_not_ws {c : Char} (h : isLowerChG c = true) : isPyWs c = false := by
  simp only [isLowerChG, isAsciiLow, isCyrLow, Bool.or_eq_true, Bool.and_eq_true,
    decide_eq_true_eq] at h
  rw [Bool.eq_false_iff]
  intro hw
  simp only [isPyWs, Bool.or_eq_true, decide_eq_true_eq] at hw
  omega

theorem upper_not_ws {c : Char} (h : isUpperChG c = true) : isPyWs c = false := by
  simp only [isUpperChG, isAsciiUp, isCyrUp, Bool.or_eq_true, Bool.and_eq_true,
    decide_eq_true_eq] at h
  rw [Bool.eq_false_iff]
  intro hw
  simp only [isPyWs, Bool.or_eq_true, decide_eq_true_eq] at hw
  omega

theorem pyToUpper_of_upper {c : Char} (h : isUpperChG c = true) :
    pyToUpper c = c := by
  have hl : isLowerChG c = false := upper_not_lower h
  simp only [isLowerChG, Bool.or_eq_false_iff] at hl
  obtain ⟨⟨ha, hb⟩, hc⟩ := hl
  have hc' : ¬(c.toNat = 1105) := of_decide_eq_false hc
  simp [pyToUpper, ha, hb, hc']

theorem pyToLower_of_lower {c : Char} (h : isLowerChG c = true) :
    pyToLower c = c := by
  have hu : isUpperChG c = false := lower_not_upper h
  simp only [isUpperChG, Bool.or_eq_false_iff] at hu
  obtain ⟨⟨ha, hb⟩, hc⟩ := hu
  have hc' : ¬(c.toNat = 1025) := of_decide_eq_false hc
  simp [pyToLower, ha, hb, hc']

theorem pyStrip_of_clean {l : List Char} {a b : Char}
    (ha : l.head? = some a) (hb : l.getLast? = some b)
    (hwa : isPyWs a = false) (hwb : isPyWs b = false) :
    pyStrip l = l := by
  cases l with
  | nil => simp at ha
  | cons c cs =>
    have hca : c = a := by simpa using ha
    subst hca
    have h1 : List.dropWhile isPyWs (c :: cs) = c :: cs := by
      simp [List.dropWhile_cons, hwa]
    have hrev : (c :: cs).reverse.head? = some b := by
      rw [List.head?_reverse]
      exact hb
    obtain ⟨d, ds, hr⟩ :=
      List.exists_cons_of_ne_nil (show (c :: cs).reverse ≠ [] by simp)
    have hdb : d = b := by
      rw [hr] at hrev
      simpa using hrev
    subst hdb
    have h2 : List.dropWhile isPyWs (c :: cs).reverse = (c :: cs).reverse := by
      rw [hr]
      simp [List.dropWhile_cons, hwb]
    unfold pyStrip
    rw [h1, h2, List.reverse_reverse]

/-- When the stripped string's first character is not lowercase (and neither
end is whitespace), the repair function leaves the string unchanged. -/
theorem repairGarble_fix {l : List Char} {a b : Char}
    (ha : l.head? = some a) (hb : l.getLast? = some b)
    (hwa : isPyWs a = false) (hwb : isPyWs b = false)
    (hla : isLowerChG a = false) :
    repairGarble l = l := by
  simp only [repairGarble]
  rw [pyStrip_of_clean ha hb hwa hwb, ha, hb]
  simp [hla]

/-- C6: the garble-repair function (modelled from the spec, §4.4 — the source
files contain no repair function) is idempotent: a repaired string passes
through unchanged, because every possible output starts with a non-lowercase
character, so the casing trigger cannot fire twice. -/
theorem c6_repair_idempotent (s : List Char) :
    repairGarble (repairGarble s) = repairGarble s := by
  cases ht : (pyStrip s).head? with
  | none =>
    have hempty : pyStrip s = [] := List.head?_eq_none_iff.mp ht
    have hres : repairGarble s = s := by simp [repairGarble, hempty]
    rw [hres]
    exact hres
  | some a =>
    obtain ⟨b, hbb⟩ : ∃ b, (pyStrip s).getLast? = some b := by
      cases hl : (pyStrip s).getLast? with
      | none =>
        have hnil : pyStrip s = [] := List.getLast?_eq_none_iff.mp hl
        rw [hnil] at ht
        simp at ht
      | some b => exact ⟨b, rfl⟩
    by_cases hcond : (isLowerChG a && isUpperChG b) = true
    · have hsplit := hcond
      rw [Bool.and_eq_true] at hsplit
      obtain ⟨hla, hub⟩ := hsplit
      obtain ⟨rest, hts⟩ : ∃ rest, pyStrip s = a :: rest := by
        cases hl : pyStrip s with
        | nil => rw [hl] at ht; simp at ht
        | cons x xs =>
          rw [hl] at ht
          have hxa : x = a := by simpa using ht
          exact ⟨xs, by rw [hxa]⟩
      cases rest with
      | nil =>
        exfalso
        rw [hts] at hbb
        have hab : a = b := by simpa using hbb
        rw [← hab, lower_not_upper hla] at hub
        exact absurd hub (by decide)
      | cons y rest2 =>
        have hrh : (pyStrip s).reverse.head? = some b := by
          rw [List.head?_reverse]
          exact hbb
        have hrl : (pyStrip s).reverse.getLast? = some a := by
          rw [List.getLast?_reverse]
          exact ht
        obtain ⟨d, r2, hr⟩ := List.exists_cons_of_ne_nil
          (show (pyStrip s).reverse ≠ [] from by rw [hts]; simp)
        have hdb : d = b := by
          rw [hr] at hrh
          simpa using hrh
        rw [hdb] at hr
        have hr2ne : r2 ≠ [] := by
          intro hnil
          have hlen : (pyStrip s).reverse.length = rest2.length + 2 := by
            rw [List.length_reverse, hts]
            simp
          rw [hr, hnil] at hlen
          simp at hlen
        obtain ⟨z, r3, hr2⟩ := List.exists_cons_of_ne_nil hr2ne
        have hr2last : r2.getLast? = some a := by
          rw [hr, hr2] at hrl
          rw [List.getLast?_cons_cons] at hrl
          rw [hr2]
          exact hrl
        have hfix_r : repairGarble (pyStrip s).reverse = (pyStrip s).reverse :=
          repairGarble_fix hrh hrl (upper_not_ws hub) (lower_not_ws hla)
            (upper_not_lower hub)
        have hcap : pyCapitalize (pyStrip s).reverse =
            pyToUpper b :: r2.map pyToLower := by
          rw [hr]
          rfl
        have hcap_head : (pyCapitalize (pyStrip s).reverse).head? =
            some (pyToUpper b) := by
          rw [hcap]
          rfl
        have hcap_last : (pyCapitalize (pyStrip s).reverse).getLast? =
            some (pyToLower a) := by
          rw [hcap, hr2]
          simp only [List.map_cons]
          rw [List.getLast?_cons_cons]
          rw [show pyToLower z :: List.map pyToLower r3 =
              List.map pyToLower (z :: r3) from rfl]
          rw [List.getLast?_map]
          rw [show (z :: r3).getLast? = some a from by rw [← hr2]; exact hr2last]
          rfl
        have hfix_cap : repairGarble (pyCapitalize (pyStrip s).reverse) =
            pyCapitalize (pyStrip s).reverse := by
          apply repairGarble_fix hcap_head hcap_last
          · rw [pyToUpper_of_upper hub]
            exact upper_not_ws hub
          · rw [pyToLower_of_lower hla]
            exact lower_not_ws hla
          · rw [pyToUpper_of_upper hub]
            exact upper_not_lower hub
        by_cases hwk :
            (garbleWeekdays.any fun w => hasSub w (lowerL (pyStrip s).reverse)) = true
        · have hres : repairGarble s = pyCapitalize (pyStrip s).reverse := by
            simp only [repairGarble]
            rw [ht, hbb]
            simp [hcond, hwk]
          rw [hres]
          exact hfix_cap
        · have hwk' :
              (garbleWeekdays.any fun w => hasSub w (lowerL (pyStrip s).reverse))
                = false := Bool.eq_false_iff.mpr hwk
          have hres : repairGarble s = (pyStrip s).reverse := by
            simp only [repairGarble]
            rw [ht, hbb]
            simp [hcond, hwk']
          rw [hres]
          exact hfix_r
    · have hcond' : (isLowerChG a && isUpperChG b) = false :=
        Bool.eq_false_iff.mpr hcond
      have hres : repairGarble s = s := by
        simp only [repairGarble]
        rw [ht, hbb]
        simp [hcond']
      rw [hres]
      exact hres

/-- A page whose group anchors are empty contributes nothing. -/
theorem processPage_skip {p : Page} (h : groupAnchorsOf p = []) (s : Sched) :
    processPage s p = s := by
  simp [processPage, h]

/-- C5: a document whose selected pages all yield zero recoverable group
columns parses to the empty result `groups = {}`; the embedded function is
total, so nothing after a successful open can raise. -/
theorem c5_empty_groups (doc : List Page) (course : ℤ)
    (h : ∀ p ∈ pagesFor doc course, groupAnchorsOf p = []) :
    parseSchedulePdf doc course = ⟨[]⟩ := by
  unfold parseSchedulePdf
  have hs : (pagesFor doc course).foldl processPage [] = [] := by
    revert h
    generalize pagesFor doc course = ps
    induction ps with
    | nil => intro _; rfl
    | cons p ps2 ih =>
      intro h
      rw [List.foldl_cons, processPage_skip (h p (by simp))]
      exact ih fun q hq => h q (by simp [hq])
  rw [hs]
  rfl

/-- Witness for `c5_empty_groups` on a one-page document with words but no
group header. -/
theorem c5_witness :
    (∀ p ∈ pagesFor [pageNoGroups] 1, groupAnchorsOf p = []) ∧
    parseSchedulePdf [pageNoGroups] 1 = ⟨[]⟩ :=
  ⟨by decide, c5_empty_groups [pageNoGroups] 1 (by decide)⟩

/-- C8: in the final response, within any one (group, day) bucket no two
LessonItems share the same (subject, time_start) pair — the append at lines
216-223 drops any lesson whose key already occurs, keeping the first. -/
theorem c8_dedup_invariant (doc : List Page) (course : ℤ) :
    ∀ gv ∈ (parseSchedulePdf doc course).groups, ∀ ds ∈ gv.2,
      List.Pairwise distinctST ds.lessons :=
  parse_schedInv (List.Pairwise distinctST) (fun _ => True) List.Pairwise.nil
    (fun lst ls hl _ => pairwise_foldl_addLesson ls lst hl)
    (fun _ _ _ _ => trivial) doc course

/-- Witness for `c8_dedup_invariant` on the concrete one-lesson schedule of
`pageTwoGroups`. -/
theorem c8_witness :
    (("Группа 1",
      [{ day_name := "Понедельник",
         lessons := [{ subject := "Математика", type := "Лекция", teacher := "",
                       room := "", time_start := "8:30", time_end := "" }] }])
        ∈ (parseSchedulePdf [pageTwoGroups] 1).groups) ∧
    List.Pairwise distinctST
      [{ subject := "Математика", type := "Лекция", teacher := "", room := "",
         time_start := "8:30", time_end := "" }] := by
  refine ⟨by decide, ?_⟩
  exact c8_dedup_invariant [pageTwoGroups] 1
    ("Группа 1",
      [{ day_name := "Понедельник",
         lessons := [{ subject := "Математика", type := "Лекция", teacher := "",
                       room := "", time_start := "8:30", time_end := "" }] }])
    (by decide)
    { day_name := "Понедельник",
      lessons := [{ subject := "Математика", type := "Лекция", teacher := "",
                    room := "", time_start := "8:30", time_end := "" }] }
    (by decide)

/-- C10 (amended): every LessonItem in the result has a `time_start` that
begins with a one- or two-digit hour, a colon and two minute digits ('.'
normalized to ':'); zero-padding to HH:MM is not guaranteed and `time_end`
may be empty. -/
theorem c10_amended_time_shape (doc : List Page) (course : ℤ) :
    ∀ gv ∈ (parseSchedulePdf doc course).groups, ∀ ds ∈ gv.2,
      ∀ l ∈ ds.lessons, begTime l.time_start = true :=
  parse_schedInv
    (fun lst => ∀ l ∈ lst, begTime l.time_start = true)
    (fun l => begTime l.time_start = true)
    (by simp)
    (fun lst ls hl hq l hm => by
      rcases mem_foldl_addLesson ls lst l hm with h1 | h2
      · exact hl l h1
      · exact hq l h2)
    (fun p row hrow l0 => buildRows_start hrow)
    doc course

/-- Witness for `c10_amended_time_shape` at the concrete lesson of
`pageTwoGroups`. -/
theorem c10_amended_witness :
    (("Группа 1",
      [{ day_name := "Понедельник",
         lessons := [{ subject := "Математика", type := "Лекция", teacher := "",
                       room := "", time_start := "8:30", time_end := "" }] }])
        ∈ (parseSchedulePdf [pageTwoGroups] 1).groups) ∧
    begTime "8:30" = true := by
  refine ⟨by decide, ?_⟩
  exact c10_amended_time_shape [pageTwoGroups] 1
    ("Группа 1",
      [{ day_name := "Понедельник",
         lessons := [{ subject := "Математика", type := "Лекция", teacher := "",
                       room := "", time_start := "8:30", time_end := "" }] }])
    (by decide)
    { day_name := "Понедельник",
      lessons := [{ subject := "Математика", type := "Лекция", teacher := "",
                    room := "", time_start := "8:30", time_end := "" }] }
    (by decide)
    { subject := "Математика", type := "Лекция", teacher := "", room := "",
      time_start := "8:30", time_end := "" }
    (by decide)

/-- C7 (amended): for every page, each TimeSlot's bottom_y equals the next
slot's top_y and the last slot's bottom_y equals the page height; top_y is NOT
in general strictly increasing (the slots are ordered by time-word y-centers,
and a tall word can put its top out of order). -/
theorem c7_amended_rows_chain (p : Page) :
    List.Chain' (fun r r2 : Row => r.bottom = r2.top) (buildRows p) ∧
    ∀ r : Row, (buildRows p).getLast? = some r → r.bottom = p.height :=
  ⟨rowsFrom_chain p.height (sortedTimeAnchors p.words),
   fun r hr => rowsFrom_last p.height (sortedTimeAnchors p.words) r hr⟩

/-- Witness for `c7_amended_rows_chain` on `pageTwoGroups`. -/
theorem c7_amended_witness :
    ((buildRows pageTwoGroups).getLast? =
      some { startS := "8:30", endS := "", top := 165, bottom := 200 }) ∧
    Row.bottom { startS := "8:30", endS := "", top := 165, bottom := 200 } =
      pageTwoGroups.height := by
  refine ⟨by decide, ?_⟩
  exact (c7_amended_rows_chain pageTwoGroups).2 _ (by decide)

/-- C7 counterexample: on `pageMisorderedTimes` the two time words have
y-centers ordered opposite to their top edges, so the built TimeSlot list has
tops 25 then -5 — not strictly increasing in top_y (the page is processed:
it has a group anchor). -/
theorem c7_counterexample :
    groupAnchorsOf pageMisorderedTimes ≠ [] ∧
    ¬ List.Chain' (fun r r2 : Row => r.top < r2.top)
        (buildRows pageMisorderedTimes) := by
  constructor
  · decide
  · intro hch
    have he : buildRows pageMisorderedTimes =
        [⟨"9:50", "", 25, -5⟩, ⟨"8:30", "", -5, 200⟩] := by decide
    rw [he, List.chain'_cons] at hch
    have h25 : (25 : ℚ) < -5 := hch.1
    norm_num at h25

end BSU
